import Mathlib

/-!
Verification of the Dimensionality Reducer of the PCA notebook
(`2.PCA.ipynb`).

The notebook centers the Iris data (`iris_data - np.mean(iris_data, axis=0)`),
fits `sklearn.decomposition.PCA` to it, and describes the linear
encode/decode pair `z = U_νᵀ x`, `x̂ = U_ν z` over the fitted orthogonal
basis `U`.  The centering step and the encode/decode formulas are embedded
directly from the notebook.  The PCA fit itself is performed by the external
library (its code is not part of the repository), so the fitted basis and
the `fit` orchestration are modelled from the specification: an orthogonal
matrix whose columns are ranked by descending captured variance, produced
from the covariance matrix `C = (1/N) Xᵀ X` by an external
eigendecomposition primitive.

Real numbers of the program are modelled as rationals (exact arithmetic),
so every value is finite and all definitions are executable.
-/

namespace PCAModel

open Matrix Finset

/-- Per-column mean of an `N × D` matrix, from `np.mean(iris_data, axis=0)`
in the notebook. -/
def colMean {N D : ℕ} (X : Matrix (Fin N) (Fin D) ℚ) (j : Fin D) : ℚ :=
  (∑ i, X i j) / (N : ℚ)

/-- The centering step of the notebook: `iris_data - np.mean(iris_data, axis=0)`
subtracts the per-column mean from every entry. -/
def center {N D : ℕ} (X : Matrix (Fin N) (Fin D) ℚ) : Matrix (Fin N) (Fin D) ℚ :=
  fun i j => X i j - colMean X j

/-- Modelled from the spec: the Basis returned by `fit`.  The spec requires a
`D × D` orthogonal matrix `U` whose columns are ranked by descending captured
variance, together with the (non-negative) variance captured by each
component.  The eigendecomposition producing it is an external
linear-algebra primitive. -/
structure PCABasis (D : ℕ) where
  U : Matrix (Fin D) (Fin D) ℚ
  variance : Fin D → ℚ
  ortho : Uᵀ * U = 1
  var_nonneg : ∀ i, 0 ≤ variance i
  var_sorted : ∀ i j : Fin D, i ≤ j → variance j ≤ variance i

/-- The truncated basis `U_ν`: the first `ν` columns of `U` ("we only retain
the first ν columns of U, denoted by U_ν" in the notebook). -/
def truncCols {D : ℕ} (U : Matrix (Fin D) (Fin D) ℚ) (ν : ℕ) (h : ν ≤ D) :
    Matrix (Fin D) (Fin ν) ℚ :=
  fun i j => U i (Fin.castLE h j)

/-- Encoding, from the notebook: `z = U_νᵀ x`. -/
def encode {D ν : ℕ} (Uν : Matrix (Fin D) (Fin ν) ℚ) (x : Fin D → ℚ) : Fin ν → ℚ :=
  Uνᵀ *ᵥ x

/-- Decoding, from the notebook: `x̂ = U_ν z`. -/
def decode {D ν : ℕ} (Uν : Matrix (Fin D) (Fin ν) ℚ) (z : Fin ν → ℚ) : Fin D → ℚ :=
  Uν *ᵥ z

/-- The round trip `x̂ = decode (encode x)` of the notebook. -/
def reconstruct {D ν : ℕ} (Uν : Matrix (Fin D) (Fin ν) ℚ) (x : Fin D → ℚ) : Fin D → ℚ :=
  decode Uν (encode Uν x)

/-- Squared Euclidean norm, used to compare reconstruction errors
(`‖v‖` is non-increasing exactly when `‖v‖²` is). -/
def sqNorm {D : ℕ} (v : Fin D → ℚ) : ℚ :=
  v ⬝ᵥ v

/-- Modelled from the spec: total variance of a fitted basis, the denominator
of `explained_variance_ratio_`. -/
def totalVariance {D : ℕ} (B : PCABasis D) : ℚ :=
  ∑ i, B.variance i

/-- Modelled from the spec: `explainedVarianceRatio(Basis)`, for each
component `variance_i / total_variance` (the notebook's
`explained_variance_ratio_`). -/
def explainedVarianceRatio {D : ℕ} (B : PCABasis D) (i : Fin D) : ℚ :=
  B.variance i / totalVariance B

/-- Modelled from the spec: the covariance matrix `C = (1/N) Xᵀ X` that `fit`
computes over its input, without re-centering it. -/
def covariance {N D : ℕ} (X : Matrix (Fin N) (Fin D) ℚ) : Matrix (Fin D) (Fin D) ℚ :=
  ((N : ℚ))⁻¹ • (Xᵀ * X)

/-- Modelled from the spec: the error taxonomy of the reducer. -/
inductive FitError where
  | InvalidInput
deriving DecidableEq

/-- Modelled from the spec: `fit` is a thin orchestration over an external
eigendecomposition primitive `eig`.  It validates its input (`N ≥ 2`,
`1 ≤ ν ≤ D`; over `ℚ` every value is finite, so the non-finite-value
condition cannot occur) and on success hands the covariance matrix of the
input, as given, to the primitive.  Failure is atomic: the `Except.error`
branch carries no basis. -/
def fit {N D : ℕ} (eig : Matrix (Fin D) (Fin D) ℚ → PCABasis D)
    (X : Matrix (Fin N) (Fin D) ℚ) (ν : ℕ) : Except FitError (PCABasis D) :=
  if 2 ≤ N ∧ 1 ≤ ν ∧ ν ≤ D then Except.ok (eig (covariance X))
  else Except.error FitError.InvalidInput

/-- Modelled from the spec: a basis is a fit of a covariance matrix `C` when
it diagonalizes `C`, i.e. `C = U · diag(variance) · Uᵀ` (the eigenvectors of
the data covariance matrix, with the variances as eigenvalues). -/
def IsFitOf {D : ℕ} (B : PCABasis D) (C : Matrix (Fin D) (Fin D) ℚ) : Prop :=
  C = B.U * Matrix.diagonal B.variance * B.Uᵀ

/-- A concrete fitted basis used as a witness: the identity basis on `ℚ²`
with variances `(2, 1)`. -/
def idBasis2 : PCABasis 2 :=
  { U := 1
    variance := ![2, 1]
    ortho := by simp
    var_nonneg := by decide
    var_sorted := by decide }

/-- Whether a `fit` call succeeded (it produced a basis). -/
def isOk {ε α : Type} : Except ε α → Bool
  | Except.ok _ => true
  | Except.error _ => false

/-- Truncating an orthogonal basis to its first `ν` columns keeps the columns
orthonormal: `U_νᵀ U_ν = 1` (ν × ν). -/
theorem truncCols_orthonormal {D : ℕ} {U : Matrix (Fin D) (Fin D) ℚ}
    (hU : Uᵀ * U = 1) {ν : ℕ} (h : ν ≤ D) :
    (truncCols U ν h)ᵀ * truncCols U ν h = 1 := by
  ext j k
  have hjk := congrFun (congrFun hU (Fin.castLE h j)) (Fin.castLE h k)
  simp only [Matrix.mul_apply, Matrix.transpose_apply, Matrix.one_apply, truncCols] at hjk ⊢
  rw [hjk]
  simp [Fin.castLE_inj]

/-- C10: the notebook's centering step produces a matrix whose per-column
means are exactly zero (in the exact arithmetic of `ℚ`), and it is
idempotent: centering an already-centered matrix changes nothing. -/
theorem center_colMean_zero_and_idempotent {N D : ℕ} (X : Matrix (Fin N) (Fin D) ℚ) :
    (∀ j, colMean (center X) j = 0) ∧ center (center X) = center X := by
  have hmean : ∀ j, colMean (center X) j = 0 := by
    intro j
    rcases Nat.eq_zero_or_pos N with hN | hN
    · subst hN
      simp [colMean, center]
    · have hNQ : (N : ℚ) ≠ 0 := Nat.cast_ne_zero.mpr (Nat.pos_iff_ne_zero.mp hN)
      unfold colMean center
      rw [Finset.sum_sub_distrib, Finset.sum_const, Finset.card_univ, Fintype.card_fin,
        nsmul_eq_mul]
      unfold colMean
      rw [← mul_div_assoc, mul_div_cancel_left₀ _ hNQ, sub_self, zero_div]
  refine ⟨hmean, ?_⟩
  ext i j
  show center X i j - colMean (center X) j = center X i j
  rw [hmean j, sub_zero]

/-- C4: the explained-variance-ratio sequence is non-increasing in the
component index (the ordering itself is deterministic: the model is a pure
function of the fitted basis). -/
theorem explainedVarianceRatio_antitone {D : ℕ} (B : PCABasis D) (i j : Fin D)
    (hij : i ≤ j) :
    explainedVarianceRatio B j ≤ explainedVarianceRatio B i := by
  have hnn : (0:ℚ) ≤ totalVariance B := Finset.sum_nonneg fun k _ => B.var_nonneg k
  unfold explainedVarianceRatio
  rcases eq_or_lt_of_le hnn with hT | hT
  · rw [← hT, div_zero, div_zero]
  · exact (div_le_div_iff_of_pos_right hT).mpr (B.var_sorted i j hij)

/-- Witness for C4 at the concrete basis `idBasis2` and indices `0 ≤ 1`. -/
theorem explainedVarianceRatio_antitone_witness :
    explainedVarianceRatio idBasis2 1 ≤ explainedVarianceRatio idBasis2 0 :=
  explainedVarianceRatio_antitone idBasis2 0 1 (by decide)

/-- C2: the fitted basis `U` is orthogonal (`Uᵀ U = 1`); consequently every
truncation `U_ν` has orthonormal columns (`U_νᵀ U_ν = 1`, ν × ν) and
`U_ν U_νᵀ` is a `D × D` idempotent, symmetric projector of rank `ν`. -/
theorem basis_projector_properties {D : ℕ} (B : PCABasis D) {ν : ℕ} (h : ν ≤ D) :
    B.Uᵀ * B.U = 1 ∧
    (truncCols B.U ν h)ᵀ * truncCols B.U ν h = 1 ∧
    truncCols B.U ν h * (truncCols B.U ν h)ᵀ * (truncCols B.U ν h * (truncCols B.U ν h)ᵀ)
      = truncCols B.U ν h * (truncCols B.U ν h)ᵀ ∧
    (truncCols B.U ν h * (truncCols B.U ν h)ᵀ)ᵀ = truncCols B.U ν h * (truncCols B.U ν h)ᵀ ∧
    (truncCols B.U ν h * (truncCols B.U ν h)ᵀ).rank = ν := by
  have hO := truncCols_orthonormal B.ortho h
  set A := truncCols B.U ν h with hA
  have hmid : Aᵀ * (A * Aᵀ) = Aᵀ := by
    rw [← Matrix.mul_assoc, hO, Matrix.one_mul]
  refine ⟨B.ortho, hO, ?_, ?_, ?_⟩
  · rw [Matrix.mul_assoc, hmid]
  · rw [Matrix.transpose_mul, Matrix.transpose_transpose]
  · have h1 : (A * Aᵀ).rank ≤ ν :=
      le_trans (Matrix.rank_mul_le_left A Aᵀ) A.rank_le_width
    have key : Aᵀ * (A * Aᵀ * A) = 1 := by
      rw [Matrix.mul_assoc A Aᵀ A, ← Matrix.mul_assoc Aᵀ A (Aᵀ * A), hO,
        Matrix.one_mul]
    have h2 : ν ≤ (A * Aᵀ).rank := by
      have hr1 := Matrix.rank_mul_le_right Aᵀ (A * Aᵀ * A)
      have hr2 := Matrix.rank_mul_le_left (A * Aᵀ) A
      rw [key, Matrix.rank_one, Fintype.card_fin] at hr1
      exact le_trans hr1 hr2
    exact le_antisymm h1 h2

/-- Witness for C2: the rank-`ν` projector conclusion at `idBasis2`, ν = 1. -/
theorem basis_projector_properties_witness :
    (truncCols idBasis2.U 1 (by decide) * (truncCols idBasis2.U 1 (by decide))ᵀ).rank = 1 :=
  (basis_projector_properties idBasis2 (by decide)).2.2.2.2

/-- C3: explained-variance ratios are non-negative, the retained ratios sum
to at most 1, and all `D` of them sum to exactly 1 (for a basis with positive
total variance; with zero total variance the ratios are not defined by the
program either, `0/0`). -/
theorem explainedVarianceRatio_bounds {D ν : ℕ} (B : PCABasis D) (h : ν ≤ D)
    (hpos : 0 < totalVariance B) :
    (∀ i, 0 ≤ explainedVarianceRatio B i) ∧
    (∑ j : Fin ν, explainedVarianceRatio B (Fin.castLE h j)) ≤ 1 ∧
    (∑ i : Fin D, explainedVarianceRatio B i) = 1 := by
  have hT : totalVariance B ≠ 0 := ne_of_gt hpos
  refine ⟨fun i => div_nonneg (B.var_nonneg i) (le_of_lt hpos), ?_, ?_⟩
  · unfold explainedVarianceRatio
    rw [← Finset.sum_div, div_le_one hpos]
    have himg : ∑ j : Fin ν, B.variance (Fin.castLE h j)
        = ∑ i ∈ Finset.univ.image (Fin.castLE h), B.variance i := by
      rw [Finset.sum_image (fun a _ b _ hab => Fin.castLE_injective h hab)]
    rw [himg]
    exact Finset.sum_le_sum_of_subset_of_nonneg (Finset.subset_univ _)
      (fun i _ _ => B.var_nonneg i)
  · unfold explainedVarianceRatio
    rw [← Finset.sum_div]
    exact div_self hT

/-- Witness for C3 at `idBasis2` with ν = 1. -/
theorem explainedVarianceRatio_bounds_witness :
    (∑ i : Fin 2, explainedVarianceRatio idBasis2 i) = 1 :=
  (explainedVarianceRatio_bounds idBasis2 (le_refl 2)
    (by norm_num [totalVariance, idBasis2, Fin.sum_univ_two])).2.2

/-- C6: `fit` succeeds exactly on valid input (`N ≥ 2`, `1 ≤ ν ≤ D`; over the
exact rationals every value is finite), fails with `InvalidInput` otherwise,
and is atomic: the error branch produces no basis, the success branch
produces the complete basis computed from the input's covariance matrix. -/
theorem fit_ok_iff {N D : ℕ} (eig : Matrix (Fin D) (Fin D) ℚ → PCABasis D)
    (X : Matrix (Fin N) (Fin D) ℚ) (ν : ℕ) :
    (isOk (fit eig X ν) = true ↔ (2 ≤ N ∧ 1 ≤ ν ∧ ν ≤ D)) ∧
    (¬(2 ≤ N ∧ 1 ≤ ν ∧ ν ≤ D) → fit eig X ν = Except.error FitError.InvalidInput) ∧
    ((2 ≤ N ∧ 1 ≤ ν ∧ ν ≤ D) → fit eig X ν = Except.ok (eig (covariance X))) := by
  by_cases hc : 2 ≤ N ∧ 1 ≤ ν ∧ ν ≤ D <;>
    simp [fit, hc, isOk]

/-- Witness for C6: a valid call (`N = 2`, `ν = 1 ≤ D = 2`) succeeds and
returns the basis computed from the covariance of the given input. -/
theorem fit_ok_iff_witness :
    fit (fun _ => idBasis2) (0 : Matrix (Fin 2) (Fin 2) ℚ) 1
      = Except.ok ((fun _ => idBasis2) (covariance (0 : Matrix (Fin 2) (Fin 2) ℚ))) :=
  (fit_ok_iff (fun _ => idBasis2) 0 1).2.2 (by decide)

/-- C1: `decode (encode x) = U_ν U_νᵀ x` is the orthogonal projection of `x`
onto the column span of `U_ν`: it lies in that span and its residual is
orthogonal to every column of `U_ν`; it equals `x` exactly when `x` already
lies in the span, and for `ν = D` it equals `x` for every `x`. -/
theorem reconstruct_is_orthogonal_projection {D ν : ℕ} (B : PCABasis D) (h : ν ≤ D)
    (x : Fin D → ℚ) :
    reconstruct (truncCols B.U ν h) x = (truncCols B.U ν h * (truncCols B.U ν h)ᵀ) *ᵥ x ∧
    (∃ z, reconstruct (truncCols B.U ν h) x = truncCols B.U ν h *ᵥ z) ∧
    (truncCols B.U ν h)ᵀ *ᵥ (x - reconstruct (truncCols B.U ν h) x) = 0 ∧
    (reconstruct (truncCols B.U ν h) x = x ↔ ∃ z, x = truncCols B.U ν h *ᵥ z) ∧
    (ν = D → reconstruct (truncCols B.U ν h) x = x) := by
  have hO := truncCols_orthonormal B.ortho h
  set A := truncCols B.U ν h with hA
  have hrec : reconstruct A x = A *ᵥ (Aᵀ *ᵥ x) := rfl
  have hcancel : ∀ w, Aᵀ *ᵥ (A *ᵥ w) = w := fun w => by
    rw [Matrix.mulVec_mulVec, hO, Matrix.one_mulVec]
  have hsub : ∀ z, reconstruct A (A *ᵥ z) = A *ᵥ z := fun z => by
    rw [show reconstruct A (A *ᵥ z) = A *ᵥ (Aᵀ *ᵥ (A *ᵥ z)) from rfl, hcancel z]
  refine ⟨by rw [hrec, Matrix.mulVec_mulVec], ⟨Aᵀ *ᵥ x, hrec⟩, ?_, ?_, ?_⟩
  · rw [hrec, Matrix.mulVec_sub, hcancel, sub_self]
  · constructor
    · intro hx
      exact ⟨Aᵀ *ᵥ x, hx.symm.trans hrec⟩
    · rintro ⟨z, rfl⟩
      exact hsub z
  · intro e
    subst e
    have hUU : B.U * B.Uᵀ = 1 := Matrix.mul_eq_one_comm.mp B.ortho
    have hAU : A = B.U := by
      rw [hA]
      funext i j
      show B.U i (Fin.castLE h j) = B.U i j
      exact congrArg _ (Fin.ext rfl)
    rw [hrec, hAU, Matrix.mulVec_mulVec, hUU, Matrix.one_mulVec]

/-- Witness for C1: the projection identity at `idBasis2`, `ν = 1`,
`x = (3, 4)`. -/
theorem reconstruct_is_orthogonal_projection_witness :
    reconstruct (truncCols idBasis2.U 1 (by decide)) ![3, 4]
      = (truncCols idBasis2.U 1 (by decide) * (truncCols idBasis2.U 1 (by decide))ᵀ)
          *ᵥ ![3, 4] :=
  (reconstruct_is_orthogonal_projection idBasis2 (by decide) ![3, 4]).1

/-- For a truncation with orthonormal columns, the squared reconstruction
error is the squared norm of `x` minus the squared norm of the encoding
(Pythagoras). -/
theorem sqNorm_residual {D ν : ℕ} (Uν : Matrix (Fin D) (Fin ν) ℚ)
    (hO : Uνᵀ * Uν = 1) (x : Fin D → ℚ) :
    sqNorm (x - reconstruct Uν x) = sqNorm x - sqNorm (encode Uν x) := by
  have hcancel : ∀ w, Uνᵀ *ᵥ (Uν *ᵥ w) = w := fun w => by
    rw [Matrix.mulVec_mulVec, hO, Matrix.one_mulVec]
  have hdot : ∀ (v : Fin D → ℚ) (w : Fin ν → ℚ),
      v ⬝ᵥ (Uν *ᵥ w) = (Uνᵀ *ᵥ v) ⬝ᵥ w := fun v w => by
    rw [Matrix.dotProduct_mulVec, Matrix.mulVec_transpose]
  set z := encode Uν x with hzdef
  have hrecon : reconstruct Uν x = Uν *ᵥ z := rfl
  have h1 : x ⬝ᵥ (Uν *ᵥ z) = z ⬝ᵥ z := by rw [hdot]; rfl
  have h2 : (Uν *ᵥ z) ⬝ᵥ x = z ⬝ᵥ z := by rw [Matrix.dotProduct_comm, h1]
  have h3 : (Uν *ᵥ z) ⬝ᵥ (Uν *ᵥ z) = z ⬝ᵥ z := by rw [hdot, hcancel]
  unfold sqNorm
  rw [hrecon, Matrix.sub_dotProduct, Matrix.dotProduct_sub, Matrix.dotProduct_sub,
    h1, h2, h3]
  ring

/-- The squared norm of the `ν`-truncated encoding is the sum of the first
`ν` squared full-basis coordinates of `x`. -/
theorem sqNorm_encode_trunc {D : ℕ} (U : Matrix (Fin D) (Fin D) ℚ) {ν : ℕ} (h : ν ≤ D)
    (x : Fin D → ℚ) :
    sqNorm (encode (truncCols U ν h) x)
      = ∑ n ∈ Finset.range ν, (if hn : n < D then ((Uᵀ *ᵥ x) ⟨n, hn⟩) ^ 2 else 0) := by
  have happ : ∀ j : Fin ν,
      encode (truncCols U ν h) x j = (Uᵀ *ᵥ x) (Fin.castLE h j) := by
    intro j
    simp [encode, truncCols, Matrix.mulVec, Matrix.dotProduct, Matrix.transpose_apply]
  have hterm : ∀ j : Fin ν,
      encode (truncCols U ν h) x j * encode (truncCols U ν h) x j
        = (fun n => if hn : n < D then ((Uᵀ *ᵥ x) ⟨n, hn⟩) ^ 2 else 0) (j : ℕ) := by
    intro j
    have hj : (j : ℕ) < D := lt_of_lt_of_le j.isLt h
    show _ = if hn : (j : ℕ) < D then ((Uᵀ *ᵥ x) ⟨(j : ℕ), hn⟩) ^ 2 else 0
    rw [dif_pos hj, happ j, sq]
    rfl
  rw [show sqNorm (encode (truncCols U ν h) x)
      = ∑ j : Fin ν, encode (truncCols U ν h) x j * encode (truncCols U ν h) x j from rfl]
  have hsum : (∑ j : Fin ν, encode (truncCols U ν h) x j * encode (truncCols U ν h) x j)
      = ∑ j : Fin ν, (fun n => if hn : n < D then ((Uᵀ *ᵥ x) ⟨n, hn⟩) ^ 2 else 0) (j : ℕ) :=
    Finset.sum_congr rfl fun j _ => hterm j
  rw [hsum]
  exact Fin.sum_univ_eq_sum_range
    (fun n => if hn : n < D then ((Uᵀ *ᵥ x) ⟨n, hn⟩) ^ 2 else 0) ν

/-- C7: for a fixed centered vector `x`, the squared reconstruction error
`‖x − decode(encode(x))‖²` is non-increasing as `ν` increases (the error norm
itself is non-increasing exactly when its square is). -/
theorem reconstruction_error_antitone {D : ℕ} (B : PCABasis D) {ν₁ ν₂ : ℕ}
    (h12 : ν₁ ≤ ν₂) (h2 : ν₂ ≤ D) (x : Fin D → ℚ) :
    sqNorm (x - reconstruct (truncCols B.U ν₂ h2) x)
      ≤ sqNorm (x - reconstruct (truncCols B.U ν₁ (le_trans h12 h2)) x) := by
  rw [sqNorm_residual _ (truncCols_orthonormal B.ortho (le_trans h12 h2)) x,
    sqNorm_residual _ (truncCols_orthonormal B.ortho h2) x,
    sqNorm_encode_trunc B.U (le_trans h12 h2) x, sqNorm_encode_trunc B.U h2 x]
  have hmono :
      (∑ n ∈ Finset.range ν₁, (if hn : n < D then ((B.Uᵀ *ᵥ x) ⟨n, hn⟩) ^ 2 else 0))
        ≤ ∑ n ∈ Finset.range ν₂, (if hn : n < D then ((B.Uᵀ *ᵥ x) ⟨n, hn⟩) ^ 2 else 0) := by
    refine Finset.sum_le_sum_of_subset_of_nonneg (Finset.range_subset.mpr h12) ?_
    intro n _ _
    by_cases hn : n < D
    · rw [dif_pos hn]
      positivity
    · rw [dif_neg hn]
  exact sub_le_sub_left hmono _

/-- Witness for C7 at `idBasis2`, `ν₁ = 1 ≤ ν₂ = 2`, `x = (3, 4)`. -/
theorem reconstruction_error_antitone_witness :
    sqNorm (![3, 4] - reconstruct (truncCols idBasis2.U 2 (by decide)) ![3, 4])
      ≤ sqNorm (![3, 4] - reconstruct (truncCols idBasis2.U 1 (by decide)) ![3, 4]) :=
  reconstruction_error_antitone idBasis2 (by decide) (by decide) ![3, 4]

/-- The characteristic values of any fit of `C` are determined by `C`:
`det (t•1 − C)` factors as `∏ (t − variance i)`. -/
theorem det_smul_one_sub_of_isFitOf {D : ℕ} {B : PCABasis D}
    {C : Matrix (Fin D) (Fin D) ℚ} (hB : IsFitOf B C) (t : ℚ) :
    (t • (1 : Matrix (Fin D) (Fin D) ℚ) - C).det = ∏ i, (t - B.variance i) := by
  have hUU : B.U * B.Uᵀ = 1 := Matrix.mul_eq_one_comm.mp B.ortho
  have hsplit : B.U * (t • (1 : Matrix (Fin D) (Fin D) ℚ) - Matrix.diagonal B.variance) * B.Uᵀ
      = t • (1 : Matrix (Fin D) (Fin D) ℚ) - C := by
    rw [Matrix.mul_sub, Matrix.sub_mul, Matrix.mul_smul, Matrix.mul_one, Matrix.smul_mul,
      hUU, hB]
  have hdiag : t • (1 : Matrix (Fin D) (Fin D) ℚ) - Matrix.diagonal B.variance
      = Matrix.diagonal (fun i => t - B.variance i) := by
    ext i j
    rcases eq_or_ne i j with rfl | hij
    · simp [Matrix.sub_apply, Matrix.smul_apply, Matrix.one_apply_eq,
        Matrix.diagonal_apply_eq]
    · simp [Matrix.sub_apply, Matrix.smul_apply, Matrix.one_apply_ne hij,
        Matrix.diagonal_apply_ne _ hij]
  calc (t • (1 : Matrix (Fin D) (Fin D) ℚ) - C).det
      = (B.U * (t • (1 : Matrix (Fin D) (Fin D) ℚ) - Matrix.diagonal B.variance) * B.Uᵀ).det := by
        rw [hsplit]
    _ = B.U.det * (t • (1 : Matrix (Fin D) (Fin D) ℚ) - Matrix.diagonal B.variance).det
          * B.Uᵀ.det := by
        rw [Matrix.det_mul, Matrix.det_mul]
    _ = (t • (1 : Matrix (Fin D) (Fin D) ℚ) - Matrix.diagonal B.variance).det
          * (B.U.det * B.Uᵀ.det) := by ring
    _ = (t • (1 : Matrix (Fin D) (Fin D) ℚ) - Matrix.diagonal B.variance).det := by
        rw [← Matrix.det_mul, hUU, Matrix.det_one, mul_one]
    _ = ∏ i, (t - B.variance i) := by
        rw [hdiag, Matrix.det_diagonal]

/-- C8: `fit` is deterministic up to the legitimate freedom of the
eigendecomposition: any two bases fitted to the same covariance matrix have
the same (descending) variance sequence, hence identical
explained-variance ratios, even if their eigenvector matrices differ. -/
theorem fit_deterministic {D : ℕ} (B₁ B₂ : PCABasis D) (C : Matrix (Fin D) (Fin D) ℚ)
    (h₁ : IsFitOf B₁ C) (h₂ : IsFitOf B₂ C) :
    B₁.variance = B₂.variance ∧ explainedVarianceRatio B₁ = explainedVarianceRatio B₂ := by
  have hvar : B₁.variance = B₂.variance := by
    have heval : ∀ t : ℚ, ∏ i, (t - B₁.variance i) = ∏ i, (t - B₂.variance i) := fun t => by
      rw [← det_smul_one_sub_of_isFitOf h₁ t, ← det_smul_one_sub_of_isFitOf h₂ t]
    have hpoly : ∏ i, (Polynomial.X - Polynomial.C (B₁.variance i))
        = ∏ i, (Polynomial.X - Polynomial.C (B₂.variance i)) := by
      apply Polynomial.funext
      intro t
      simp only [Polynomial.eval_prod, Polynomial.eval_sub, Polynomial.eval_X,
        Polynomial.eval_C]
      exact heval t
    have hms : Finset.univ.val.map B₁.variance = Finset.univ.val.map B₂.variance := by
      rw [← Polynomial.roots_multiset_prod_X_sub_C (Finset.univ.val.map B₁.variance),
        ← Polynomial.roots_multiset_prod_X_sub_C (Finset.univ.val.map B₂.variance)]
      congr 1
      rw [Multiset.map_map, Multiset.map_map, ← Finset.prod_eq_multiset_prod,
        ← Finset.prod_eq_multiset_prod]
      exact hpoly
    have hperm : List.Perm (List.ofFn B₁.variance) (List.ofFn B₂.variance) := by
      rw [← Multiset.coe_eq_coe, ← Fin.univ_val_map, ← Fin.univ_val_map]
      exact_mod_cast hms
    have hs₁ : (List.ofFn B₁.variance).Sorted (fun a b => b ≤ a) := by
      rw [List.sorted_ofFn_iff]
      intro i j hij
      exact B₁.var_sorted i j (le_of_lt hij)
    have hs₂ : (List.ofFn B₂.variance).Sorted (fun a b => b ≤ a) := by
      rw [List.sorted_ofFn_iff]
      intro i j hij
      exact B₂.var_sorted i j (le_of_lt hij)
    haveI hanti : IsAntisymm ℚ (fun a b => b ≤ a) := ⟨fun _ _ hab hba => le_antisymm hba hab⟩
    exact List.ofFn_injective (List.eq_of_perm_of_sorted hperm hs₁ hs₂)
  refine ⟨hvar, ?_⟩
  unfold explainedVarianceRatio totalVariance
  rw [hvar]

/-- A fit basis with `U = 1` and variance `1`, a valid fit of `diagonal ![1]`. -/
def unitVarBasis1 : PCABasis 1 :=
  { U := 1
    variance := ![1]
    ortho := by simp
    var_nonneg := by decide
    var_sorted := by decide }

/-- A fit basis with the eigenvector sign flipped (`U = -1`), same variance. -/
def negBasis1 : PCABasis 1 :=
  { U := -1
    variance := ![1]
    ortho := by simp
    var_nonneg := by decide
    var_sorted := by decide }

/-- A fit basis with `U = 1` and variance `0`, a valid fit of the zero matrix. -/
def zeroVarBasis1 : PCABasis 1 :=
  { U := 1
    variance := ![0]
    ortho := by simp
    var_nonneg := by decide
    var_sorted := by decide }

/-- Witness for C8: two fits of the same matrix `diagonal ![1]` whose
eigenvector matrices differ by a sign have equal variances. -/
theorem fit_deterministic_witness : unitVarBasis1.variance = negBasis1.variance :=
  (fit_deterministic unitVarBasis1 negBasis1 (Matrix.diagonal ![1])
    (by
      simp only [IsFitOf, unitVarBasis1]
      ext i j
      fin_cases i
      fin_cases j
      simp [Matrix.mul_apply, Fin.sum_univ_one, Matrix.diagonal, Matrix.one_apply,
        Matrix.transpose_apply])
    (by
      simp only [IsFitOf, negBasis1]
      ext i j
      fin_cases i
      fin_cases j
      simp [Matrix.mul_apply, Fin.sum_univ_one, Matrix.diagonal, Matrix.one_apply,
        Matrix.transpose_apply])).1

/-- In dimension 1 the variance of any fit equals the (sole) covariance
entry. -/
theorem isFitOf_dim1_variance {B : PCABasis 1} {C : Matrix (Fin 1) (Fin 1) ℚ}
    (hB : IsFitOf B C) : B.variance 0 = C 0 0 := by
  have ho := congrFun (congrFun B.ortho 0) 0
  rw [Matrix.mul_apply, Fin.sum_univ_one, Matrix.transpose_apply,
    Matrix.one_apply_eq] at ho
  have he := congrFun (congrFun hB 0) 0
  rw [Matrix.mul_apply, Fin.sum_univ_one, Matrix.mul_apply, Fin.sum_univ_one,
    Matrix.transpose_apply, Matrix.diagonal_apply_eq] at he
  linear_combination (-1 : ℚ) * he - B.variance 0 * ho

/-- The concrete non-centered input of C9: two rows, one column, all ones. -/
def onesInput : Matrix (Fin 2) (Fin 1) ℚ := fun _ _ => 1

/-- C9: `fit` does not re-center its input: its covariance matrix is computed
from the input as given, so the all-ones input and its centered version have
different covariance matrices, and every basis fitted to the former differs
(already in its variances) from every basis fitted to the latter. -/
theorem fit_does_not_recenter :
    covariance onesInput ≠ covariance (center onesInput) ∧
    ∀ B₁ B₂ : PCABasis 1, IsFitOf B₁ (covariance onesInput) →
      IsFitOf B₂ (covariance (center onesInput)) → B₁.variance ≠ B₂.variance := by
  have h1 : covariance onesInput 0 0 = 1 := by
    norm_num [covariance, onesInput, Matrix.mul_apply, Matrix.transpose_apply,
      Fin.sum_univ_two, Matrix.smul_apply]
  have h2 : covariance (center onesInput) 0 0 = 0 := by
    norm_num [covariance, center, colMean, onesInput, Matrix.mul_apply,
      Matrix.transpose_apply, Fin.sum_univ_two, Matrix.smul_apply]
  constructor
  · intro heq
    rw [heq, h2] at h1
    exact zero_ne_one h1
  · intro B₁ B₂ hf1 hf2 hv
    have e1 : B₁.variance 0 = 1 := (isFitOf_dim1_variance hf1).trans h1
    have e2 : B₂.variance 0 = 0 := (isFitOf_dim1_variance hf2).trans h2
    rw [hv, e2] at e1
    exact zero_ne_one e1

/-- Witness for C9: concrete fits of the two covariance matrices whose
variances indeed differ. -/
theorem fit_does_not_recenter_witness : unitVarBasis1.variance ≠ zeroVarBasis1.variance :=
  fit_does_not_recenter.2 unitVarBasis1 zeroVarBasis1
    (by
      show covariance onesInput = unitVarBasis1.U * Matrix.diagonal unitVarBasis1.variance
        * unitVarBasis1.Uᵀ
      ext i j
      fin_cases i
      fin_cases j
      norm_num [covariance, onesInput, unitVarBasis1, Matrix.mul_apply,
          Matrix.transpose_apply, Fin.sum_univ_two, Fin.sum_univ_one, Matrix.smul_apply,
          Matrix.diagonal, Matrix.one_apply])
    (by
      show covariance (center onesInput) = zeroVarBasis1.U
        * Matrix.diagonal zeroVarBasis1.variance * zeroVarBasis1.Uᵀ
      ext i j
      fin_cases i
      fin_cases j
      norm_num [covariance, center, colMean, onesInput, zeroVarBasis1, Matrix.mul_apply,
          Matrix.transpose_apply, Fin.sum_univ_two, Fin.sum_univ_one, Matrix.smul_apply,
          Matrix.diagonal, Matrix.one_apply])

end PCAModel
